import Mathlib

/-!
Verification of the log-center client (JavaScript) against its specification.

The development shallowly embeds the source files:
* `base32.js` — generic Base-N bit-packing codec, instantiated at base32hex;
* `entry.js` / `logger.js` — entry builder (argument classification);
* `client.js` — wire encoder and resilient TLS transport.

JavaScript strings are modelled as `List Char`, byte buffers as functions
`Nat → Nat` holding values `< 256`, machine integers as `Nat`/`Int` with
explicit range checks where Node's `Buffer` API would throw.
-/

namespace LogCenter

/-! ### Base-N codec (from base32.js)

The source's `encodeBaseN`/`decodeBaseN` are generic in the bit-group size
`g`; the exported `encode`/`decode` fix `g = 5`, `p = 8` over the base32hex
alphabet.  The bit-grouping loops are embedded at those production
parameters: `symbolsFromBits` packs 5 bits per symbol (the `g`-bit group
loop of `encodeBaseN`), `bytesFromBits` packs 8 bits per byte and discards
leftover bits (the final loop of `decodeBaseN`). -/

/-- The base32hex alphabet (`BASE32HEX_CHARSET` in the source). -/
def BASE32HEX_CHARSET : List Char :=
  "0123456789abcdefghijklmnopqrstuv".toList

/-- MSB-first unpacking of the low `w` bits of `v`, as the bitmask loops of
`encodeBaseN`/`decodeBaseN` do. -/
def natToBits : Nat → Nat → List Nat
  | 0, _ => []
  | w+1, v => v / 2^w % 2 :: natToBits w v

/-- MSB-first packing of a bit list (`value << 1 | bit` accumulation). -/
def bitsToNat (l : List Nat) : Nat :=
  l.foldl (fun acc bit => 2 * acc + bit) 0

/-- The 5-bit grouping loop of `encodeBaseN` (at the production `g = 5`):
each complete 5-bit group becomes one symbol value. -/
def symbolsFromBits : List Nat → List Nat
  | b0 :: b1 :: b2 :: b3 :: b4 :: rest =>
      bitsToNat [b0, b1, b2, b3, b4] :: symbolsFromBits rest
  | _ => []

/-- The byte-packing loop of `decodeBaseN`: each complete 8-bit group
becomes one byte; leftover trailing bits are discarded. -/
def bytesFromBits : List Nat → List Nat
  | b0 :: b1 :: b2 :: b3 :: b4 :: b5 :: b6 :: b7 :: rest =>
      bitsToNat [b0, b1, b2, b3, b4, b5, b6, b7] :: bytesFromBits rest
  | _ => []

/-- `Math.ceil(n / g) * g`. -/
def ceilMul (g n : Nat) : Nat := ((n + g - 1) / g) * g

/-- `encodeBaseN` of base32.js, at the production parameters `g = 5`,
`p = 8`, over a byte list: unpack bytes to bits, zero-extend the bit array
to a multiple of 5, emit one alphabet character per 5-bit group, optionally
pad with `=` to a multiple of 8 characters. -/
def encodeBaseN (input : List Nat) (includePadding : Bool) : List Char :=
  let bits := input.flatMap (natToBits 8)
  let bitArray := bits ++ List.replicate (ceilMul 5 bits.length - bits.length) 0
  let baseNstr := (symbolsFromBits bitArray).map
    (fun v => BASE32HEX_CHARSET.getD v '0')
  if includePadding then
    baseNstr ++ List.replicate (ceilMul 8 baseNstr.length - baseNstr.length) '='
  else
    baseNstr

/-- `baseNstr.replace(/=+$/, '')`: strip trailing `=` padding characters. -/
def stripPadding (s : List Char) : List Char :=
  (s.reverse.dropWhile (· = '=')).reverse

/-- The character-validation loop of `decodeBaseN`: look up each character
in the alphabet, raising a `RangeError` on any character outside it. -/
def charsToVals : List Char → Except String (List Nat)
  | [] => .ok []
  | c :: cs =>
      if c ∈ BASE32HEX_CHARSET then
        (charsToVals cs).map (BASE32HEX_CHARSET.indexOf c :: ·)
      else
        .error "Invalid base32hex string"

/-- `decodeBaseN` of base32.js at `g = 5`: strip padding, map characters to
5-bit groups, pack complete 8-bit groups into bytes. -/
def decodeBaseN (baseNstr : List Char) : Except String (List Nat) :=
  (charsToVals (stripPadding baseNstr)).map
    (fun vals => bytesFromBits (vals.flatMap (natToBits 5)))

/-- The exported `encode` (base32hex); padding defaults to off. -/
def b32encode (input : List Nat) (includePadding : Bool := false) : List Char :=
  encodeBaseN input includePadding

/-- The exported `decode` (base32hex). -/
def b32decode (base32str : List Char) : Except String (List Nat) :=
  decodeBaseN base32str

/-! ### Wire encoder (from client.js)

`Buffer.allocUnsafe(maxEntrySize)` is modelled as an arbitrary caller-supplied
function `Nat → Nat` of initial contents. Each Node `Buffer` write method is
embedded with the range checks under which Node would throw (`ERR_OUT_OF_RANGE`
/ `ERR_INVALID_ARG_TYPE`), as an `Except`.  JavaScript numbers appearing as
write values are `Int`. -/

/-- UTF-8 encoding of one character. -/
def utf8Char (c : Char) : List Nat :=
  let v := c.toNat
  if v < 0x80 then [v]
  else if v < 0x800 then [0xC0 + v / 64, 0x80 + v % 64]
  else if v < 0x10000 then
    [0xE0 + v / 4096, 0x80 + v / 64 % 64, 0x80 + v % 64]
  else
    [0xF0 + v / 262144, 0x80 + v / 4096 % 64, 0x80 + v / 64 % 64, 0x80 + v % 64]

/-- `Buffer.byteLength(str, 'utf8')` (the source's `bytes` helper). -/
def bytesJS (s : List Char) : Nat := (s.flatMap utf8Char).length

/-- `buf.write(str, offset, 'utf8')` writes the longest prefix of whole
characters that fits in the remaining space; this computes its bytes. -/
def utf8Fit : List Char → Nat → List Nat
  | [], _ => []
  | c :: cs, rem =>
    let cb := utf8Char c
    if cb.length ≤ rem then cb ++ utf8Fit cs (rem - cb.length) else []

/-- Overwrite buffer contents at `[off, off + bytes.length)`. -/
def writeBytesAt (b : Nat → Nat) (off : Nat) (bytes : List Nat) : Nat → Nat :=
  fun i => if off ≤ i ∧ i < off + bytes.length then bytes.getD (i - off) 0 else b i

/-- The big-endian bytes of `v` over `len` bytes (as `writeUIntBE` lays
them out). -/
def beBytes (len v : Nat) : List Nat :=
  (List.range len).map (fun j => v / 2 ^ (8 * (len - 1 - j)) % 256)

/-- `buf.writeUIntBE(value, offset, byteLength)` and its fixed-width
variants: checks `0 ≤ value < 2^(8·len)` and buffer bounds, else throws. -/
def writeUIntBE (maxE : Nat) (b : Nat → Nat) (value : Int) (off len : Nat) :
    Except String (Nat → Nat) :=
  if 0 ≤ value ∧ value < (2 ^ (8 * len) : Nat) ∧ off + len ≤ maxE then
    .ok (writeBytesAt b off (beBytes len value.toNat))
  else
    .error "out of range"

/-- `buf.writeUInt8(value, offset)`, returning the next offset. -/
def writeUInt8 (maxE : Nat) (b : Nat → Nat) (value : Int) (off : Nat) :
    Except String ((Nat → Nat) × Nat) :=
  (writeUIntBE maxE b value off 1).map (fun b' => (b', off + 1))

/-- `buf.writeUInt16BE(value, offset)`, returning the next offset. -/
def writeUInt16BE (maxE : Nat) (b : Nat → Nat) (value : Int) (off : Nat) :
    Except String ((Nat → Nat) × Nat) :=
  (writeUIntBE maxE b value off 2).map (fun b' => (b', off + 2))

/-- `buf.writeInt16BE(value, offset)`: signed range check, two's-complement
big-endian encoding. -/
def writeInt16BE (maxE : Nat) (b : Nat → Nat) (value : Int) (off : Nat) :
    Except String ((Nat → Nat) × Nat) :=
  if -(2 ^ 15 : Nat) ≤ value ∧ value < (2 ^ 15 : Nat) ∧ off + 2 ≤ maxE then
    .ok (writeBytesAt b off (beBytes 2 ((value + 2 ^ 16).toNat % 2 ^ 16)), off + 2)
  else
    .error "out of range"

/-- The source's `writeStr`: `uint8` byte-length prefix, then the UTF-8
bytes (the prefix write throws when the byte length exceeds 255). -/
def writeStr (maxE : Nat) (b : Nat → Nat) (s : List Char) (off : Nat) :
    Except String ((Nat → Nat) × Nat) := do
  let (b, off) ← writeUInt8 maxE b (bytesJS s) off
  let written := utf8Fit s (maxE - off)
  .ok (writeBytesAt b off written, off + written.length)

/-- The source's `writeBigStr`: `uint16` byte-length prefix, then the
UTF-8 bytes. -/
def writeBigStr (maxE : Nat) (b : Nat → Nat) (s : List Char) (off : Nat) :
    Except String ((Nat → Nat) × Nat) := do
  let (b, off) ← writeUInt16BE maxE b (bytesJS s) off
  let written := utf8Fit s (maxE - off)
  .ok (writeBytesAt b off written, off + written.length)

/-- A normalized log entry (the `Entry` typedef of entry.js).  Fields the
builder may leave `undefined` are `Option`s. -/
structure Entry where
  bucketId : Int
  severity : Int
  message : List Char
  category : Option Int := none
  tags : List (List Char) := []
  metaKeys : List (List Char) := []
  metaValues : List (List Char) := []
  metricKeys : Option (List (List Char)) := none
  metricValues : Option (List Int) := none
  tracePaths : Option (List (List Char)) := none
  traceLines : Option (List Int) := none
  ttlEntry : Int := 0
  ttlMeta : Int := 0
  deriving DecidableEq

/-- JavaScript `x || d` on a possibly-`undefined` number. -/
def jsOrInt (v : Option Int) (d : Int) : Int :=
  match v with
  | none => d
  | some x => if x = 0 then d else x

/-- Offset constants of `write` in client.js. -/
def ofsSize : Nat := 0
def ofsBucket : Nat := 2
def ofsTime : Nat := 6
def ofsMid : Nat := 10
def ofsPid : Nat := 13
def ofsSeq : Nat := 15
def ofsSev : Nat := 18

/-- Result of a successful `write`: the final buffer, the wire bytes
`buf.subarray(0, size)`, the total size, and the rendered identifier. -/
structure WriteResult where
  buf : Nat → Nat
  size : Nat
  bytes : List Nat
  xid : List Char

/-- `write(entry)` of client.js: serialize the entry into a fresh buffer of
`maxE` bytes.  `Buffer.allocUnsafe` is modelled by the caller-supplied
initial contents `bufInit`; `mid`, `pid`, `seq`, `now` are the machine
fingerprint, masked process id, current sequence value, and
`Date.now() / 1000 | 0`.  Returns the final buffer, the wire bytes
`buf.subarray(0, size)`, and `encode(buf.subarray(ofsTime, ofsTime + 12))`. -/
def clientWrite (maxE : Nat) (bufInit : Nat → Nat) (mid pid seq now : Nat)
    (entry : Entry) : Except String WriteResult := do
  let buf := bufInit
  -- Bucket ID
  let buf ← writeUIntBE maxE buf entry.bucketId ofsBucket 4
  -- Entry ID
  let buf ← writeUIntBE maxE buf (now : Int) ofsTime 4
  let buf ← writeUIntBE maxE buf (mid : Int) ofsMid 3
  let buf ← writeUIntBE maxE buf (pid : Int) ofsPid 2
  let buf ← writeUIntBE maxE buf ((seq % 2 ^ 24 : Nat) : Int) ofsSeq 3
  -- Severity
  let (buf, size) ← writeUInt8 maxE buf entry.severity ofsSev
  -- Message
  let (buf, size) ← writeStr maxE buf entry.message size
  -- Category ID
  let (buf, size) ← writeUInt8 maxE buf (jsOrInt entry.category 0) size
  -- Tags
  let (buf, size) ← writeUInt8 maxE buf (entry.tags.length : Int) size
  let (buf, size) ← entry.tags.foldlM
    (fun (acc : (Nat → Nat) × Nat) tag => writeStr maxE acc.1 tag acc.2)
    (buf, size)
  -- Metric
  let mkeys := entry.metricKeys.getD []
  let (buf, size) ← writeUInt8 maxE buf (mkeys.length : Int) size
  let (buf, size) ← (List.range mkeys.length).foldlM
    (fun (acc : (Nat → Nat) × Nat) i => do
      let (b, o) ← writeStr maxE acc.1 (mkeys.getD i []) acc.2
      match (entry.metricValues.getD []).get? i with
      | some v => writeInt16BE maxE b v o
      | none => .error "invalid argument")
    (buf, size)
  -- Meta
  let (buf, size) ← writeUInt8 maxE buf (entry.metaKeys.length : Int) size
  let (buf, size) ← (List.range entry.metaKeys.length).foldlM
    (fun (acc : (Nat → Nat) × Nat) i => do
      let (b, o) ← writeStr maxE acc.1 (entry.metaKeys.getD i []) acc.2
      match entry.metaValues.get? i with
      | some v => writeBigStr maxE b v o
      | none => .error "invalid argument")
    (buf, size)
  -- Stack trace
  let tpaths := entry.tracePaths.getD []
  let (buf, size) ← writeUInt8 maxE buf (tpaths.length : Int) size
  let (buf, size) ← (List.range tpaths.length).foldlM
    (fun (acc : (Nat → Nat) × Nat) i => do
      let (b, o) ← writeStr maxE acc.1 (tpaths.getD i []) acc.2
      match (entry.traceLines.getD []).get? i with
      | some v => writeUInt16BE maxE b v o
      | none => .error "invalid argument")
    (buf, size)
  -- TTL: Entry
  let (buf, size) ← writeUInt16BE maxE buf (jsOrInt (some entry.ttlEntry) 0) size
  -- TTL: Meta
  let (buf, size) ← writeUInt16BE maxE buf (jsOrInt (some entry.ttlMeta) 0) size
  -- Set the size of the message
  let buf ← writeUIntBE maxE buf (size : Int) ofsSize 2
  .ok {
    buf := buf
    size := size
    bytes := (List.range size).map buf
    xid := b32encode ((List.range 12).map (fun i => buf (ofsTime + i)))
  }

/-! ### Entry builder (from entry.js / logger.js) -/

/-- Modelled from the spec: limits.js is not among the sources; the spec
treats these size/count limits as externally supplied named constants, so
they are parameters of the builder and encoder here. -/
structure Limits where
  maxEntrySize : Nat
  maxMessageSize : Nat
  maxCategorySize : Nat
  maxTagSize : Nat
  maxTagsCount : Nat
  maxMetaCount : Nat
  maxMetaKeySize : Nat
  maxMetaValueSize : Nat
  maxStackTraceCount : Nat
  maxStackTracePathSize : Nat
  maxTTL : Nat

/-- A parsed stack frame, as `stacktrace-parser` returns it from an
`Error`'s `stack` string: a possibly-absent file name and line number. -/
structure Frame where
  file : Option (List Char)
  lineNumber : Option Int
  deriving DecidableEq

/-- A JavaScript value passed to a logging call.  `err` models an `Error`
instance, carrying its `message` and the frames parsed from its `stack`
(the `stacktrace-parser` library itself is external and not modelled). -/
inductive JSValue where
  | null : JSValue
  | bool : Bool → JSValue
  | num : Int → JSValue
  | str : List Char → JSValue
  | arr : List JSValue → JSValue
  | obj : List (List Char × JSValue) → JSValue
  | err : List Char → List Frame → JSValue

mutual

/-- JavaScript `String(v)` / `v.toString()`: arrays join with `,`
(`Array.prototype.toString`), plain objects give `[object Object]`,
errors give `name: message`. -/
def jsString : JSValue → List Char
  | .null => "null".toList
  | .bool true => "true".toList
  | .bool false => "false".toList
  | .num n => (toString n).toList
  | .str s => s
  | .arr xs => List.intercalate [','] (jsStringElems xs)
  | .obj _ => "[object Object]".toList
  | .err m _ => if m = [] then "Error".toList else "Error: ".toList ++ m

/-- Element strings for `Array.prototype.join`: `null` renders empty. -/
def jsStringElems : List JSValue → List (List Char)
  | [] => []
  | .null :: xs => [] :: jsStringElems xs
  | x :: xs => jsString x :: jsStringElems xs

end

mutual

/-- `JSON.stringify`, for the plain-object branch of `stringify` (an
external builtin; modelled without escaping of exotic characters, which no
claim inspects). -/
def jsonStringify : JSValue → List Char
  | .null => "null".toList
  | .bool true => "true".toList
  | .bool false => "false".toList
  | .num n => (toString n).toList
  | .str s => '"' :: (s ++ ['"'])
  | .arr xs => '[' :: (List.intercalate [','] (jsonStringifyElems xs) ++ [']'])
  | .obj fs => '{' :: (List.intercalate [','] (jsonStringifyFields fs) ++ ['}'])
  | .err _ _ => "{}".toList

def jsonStringifyElems : List JSValue → List (List Char)
  | [] => []
  | x :: xs => jsonStringify x :: jsonStringifyElems xs

def jsonStringifyFields : List (List Char × JSValue) → List (List Char)
  | [] => []
  | (k, v) :: fs =>
      ('"' :: (k ++ ['"', ':'] ++ jsonStringify v)) :: jsonStringifyFields fs

end

/-- `stringify` of entry.js: `null`/booleans to literals, objects with a
custom `toString` (arrays, errors) via `toString()`, plain objects via
`JSON.stringify`, anything else via `'' + val`. -/
def stringify : JSValue → List Char
  | .null => "null".toList
  | .bool true => "true".toList
  | .bool false => "false".toList
  | .num n => (toString n).toList
  | .str s => s
  | .arr xs => jsString (.arr xs)
  | .err m fs => jsString (.err m fs)
  | .obj fs => jsonStringify (.obj fs)

/-- `maybeStringify` of entry.js: like `stringify` but plain objects (whose
`toString` is `Object.prototype.toString`) are kept as-is.  Note arrays and
errors have a custom `toString` and so become strings here. -/
def maybeStringify : JSValue → JSValue
  | .null => .str "null".toList
  | .bool true => .str "true".toList
  | .bool false => .str "false".toList
  | .num n => .str (toString n).toList
  | .str s => .str s
  | .arr xs => .str (jsString (.arr xs))
  | .err m fs => .str (jsString (.err m fs))
  | .obj fs => .obj fs

/-- `minMax` of entry.js (`parseInt` is the identity on the integral
numbers the markers carry). -/
def minMax (value min max : Int) : Int :=
  if value < min then min
  else if value > max then max
  else value

/-- `append` of entry.js: push only while under the cap. -/
def append {α : Type} (arr : List α) (val : α) (max : Nat) : List α :=
  if arr.length < max then arr ++ [val] else arr

/-- `truncate` of entry.js: `str.substring(0, max)`. -/
def truncate (str : List Char) (max : Nat) : List Char :=
  str.take max

/-- `category(categoryId)` of entry.js. -/
def category (categoryId : Int) : JSValue :=
  .obj [("_category".toList, .num categoryId)]

/-- `TTL(days)` of entry.js. -/
def TTL (days : Int) : JSValue :=
  .obj [("_entryTTL".toList, .num days)]

/-- `metaTTL(days)` of entry.js. -/
def metaTTL (days : Int) : JSValue :=
  .obj [("_metaTTL".toList, .num days)]

/-- Property access `obj[key]` on a plain object. -/
def getField (fields : List (List Char × JSValue)) (key : List Char) :
    Option JSValue :=
  (fields.find? (fun p => p.1 == key)).map (·.2)

/-- JavaScript truthiness of a possibly-`undefined` value (integral
numbers only; `0` is falsy). -/
def jsTruthy : Option JSValue → Bool
  | none => false
  | some .null => false
  | some (.bool b) => b
  | some (.num n) => n != 0
  | some (.str s) => s != []
  | some (.arr _) => true
  | some (.obj _) => true
  | some (.err _ _) => true

/-- Numeric coercion of a marker payload.  The marker constructors only
ever store integral numbers, which coerce to themselves; other payloads
are not exercised by the specification's claims. -/
def jsToInt : JSValue → Int
  | .num n => n
  | .bool true => 1
  | .bool false => 0
  | _ => 0

/-- `setStackTrace` of entry.js, over already-parsed frames: skip frames
with a falsy file or one ending in `/logger.js`, truncate paths, cap the
frame count; if parsing yielded no frames, leave the entry untouched. -/
def setStackTrace (L : Limits) (entry : Entry) (frames : List Frame) : Entry :=
  if frames.length = 0 then entry
  else
    frames.foldl (fun e frame =>
      match frame.file with
      | none => e
      | some file =>
        if file = [] ∨ ("/logger.js".toList).isSuffixOf file then e
        else
          { e with
            tracePaths := (some (append (e.tracePaths.getD [])
              (truncate file L.maxStackTracePathSize) L.maxStackTraceCount))
            traceLines := (some (append (e.traceLines.getD [])
              (jsOrInt frame.lineNumber 0) L.maxStackTraceCount)) })
      { entry with tracePaths := some [], traceLines := some [] }

/-- The meta loop of `sendEntry`: `for (const key in arg)` with an early
`break` once `maxMetaCount` pairs are reached. -/
def addMeta (L : Limits) : Entry → List (List Char × JSValue) → Entry
  | e, [] => e
  | e, (k, v) :: rest =>
    if e.metaKeys.length ≥ L.maxMetaCount then e
    else addMeta L
      { e with
        metaKeys := e.metaKeys ++ [truncate k L.maxMetaKeySize]
        metaValues := e.metaValues ++ [truncate (stringify v) L.maxMetaValueSize] }
      rest

/-- Classification of one (already error-intercepted and normalized)
argument, as in the body of `sendEntry`'s loop.  After `maybeStringify`
only plain objects remain objects, but the dead `Array.isArray` branch is
kept faithful to the source. -/
def processArg (L : Limits) (e : Entry) : JSValue → Entry
  | .obj fields =>
    if jsTruthy (getField fields "_category".toList) then
      let v := jsToInt ((getField fields "_category".toList).getD .null)
      { e with category := some (minMax v 0 (L.maxCategorySize : Int)) }
    else if jsTruthy (getField fields "_entryTTL".toList) then
      let v := jsToInt ((getField fields "_entryTTL".toList).getD .null)
      { e with ttlEntry := minMax v 0 (L.maxTTL : Int) }
    else if jsTruthy (getField fields "_metaTTL".toList) then
      let v := jsToInt ((getField fields "_metaTTL".toList).getD .null)
      { e with ttlMeta := minMax v 0 (L.maxTTL : Int) }
    else
      addMeta L e fields
  | .arr xs =>
    xs.foldl (fun e tag =>
      { e with tags := (append e.tags (truncate (stringify tag) L.maxTagSize)
          L.maxTagsCount) }) e
  | .str s =>
    if e.message = [] then
      { e with message := truncate s L.maxMessageSize }
    else
      { e with tags := append e.tags (truncate s L.maxTagSize) L.maxTagsCount }
  | v =>
    -- unreachable after maybeStringify; kept total via the string the
    -- value would coerce to
    if e.message = [] then
      { e with message := truncate (jsString v) L.maxMessageSize }
    else
      { e with tags := (append e.tags (truncate (jsString v) L.maxTagSize)
          L.maxTagsCount) }

/-- `sendEntry` of entry.js (the entry-building part): intercept `Error`
values (capturing their stack trace), normalize, classify; capture
`ambientFrames` (parsed from `new Error().stack`) when no error argument
provided a trace.  Returns the built entry handed to `client.write`. -/
def sendEntry (L : Limits) (severity : Int) (bucketId : Int)
    (ttlEntry ttlMeta : Int) (args : List JSValue)
    (ambientFrames : List Frame) : Entry :=
  let entry : Entry :=
    { severity := severity, bucketId := bucketId, message := []
      ttlEntry := ttlEntry, ttlMeta := ttlMeta
      tags := [], metaKeys := [], metaValues := [] }
  let entry := args.foldl (fun e arg =>
    match arg with
    | .err m fs => processArg L (setStackTrace L e fs) (.str m)
    | _ => processArg L e (maybeStringify arg)) entry
  if entry.tracePaths = none then setStackTrace L entry ambientFrames
  else entry

/-- Severity constants of entry.js. -/
def EMERGENCY : Int := 0
def ALERT : Int := 1
def CRITICAL : Int := 2
def ERROR : Int := 3
def WARNING : Int := 4
def NOTICE : Int := 5
def INFORMATIONAL : Int := 6
def DEBUG : Int := 7

/-- A full logging call: build the entry, then write it to the client
(`return client.write(entry)` in `sendEntry`). -/
def logEntry (L : Limits) (bufInit : Nat → Nat) (mid pid seq now : Nat)
    (severity bucketId ttlEntry ttlMeta : Int) (args : List JSValue)
    (ambientFrames : List Frame) : Except String WriteResult :=
  clientWrite L.maxEntrySize bufInit mid pid seq now
    (sendEntry L severity bucketId ttlEntry ttlMeta args ambientFrames)

/-! ### Resilient transport state machine (from client.js)

The TLS socket is modelled by its observable phase: `connecting` until the
connect callback fires (`writable` false), `opened` once connected
(`writable` true), `destroyed` after `destroy()` (both false).  A queued
callback closure `() => conn.write(buf.subarray(0, size))` is identified
by its byte payload; executing it appends the payload to `sent`. -/

inductive SockPhase where
  | connecting
  | opened
  | destroyed
  deriving DecidableEq

/-- The mutable state closed over by `createTlsClient`: the current socket
(`null` when absent), the pending-callback queue, the `reconnect` flag, a
count of `tls.connect` invocations, and the payloads written so far. -/
structure TransportState where
  conn : Option SockPhase
  queue : List (List Nat)
  reconnect : Bool
  attempts : Nat
  sent : List (List Nat)
  deriving DecidableEq

/-- `ensureConnected(cb)` of client.js: run `cb` at once when writable;
otherwise enqueue it, and unless a connect is already in flight, destroy
any stale socket and initiate a new connection attempt. -/
def ensureConnected (s : TransportState) (cb : List Nat) : TransportState :=
  if s.conn = some .opened then
    { s with sent := s.sent ++ [cb] }
  else
    let s := { s with queue := s.queue ++ [cb] }
    if s.conn = some .connecting then s
    else
      { s with conn := some .connecting, attempts := s.attempts + 1 }

/-- The `connect` callback: the socket opens, and exactly one queued
callback is popped (`queue.shift()`) and run. -/
def onConnect (s : TransportState) : TransportState :=
  match s.queue with
  | [] => { s with conn := some .opened }
  | cb :: rest =>
      { s with conn := some .opened, queue := rest, sent := s.sent ++ [cb] }

/-- The `close` event handler: clear the queue if an error occurred, and
forget the socket. -/
def onClose (s : TransportState) (hadError : Bool) : TransportState :=
  { s with queue := if hadError then [] else s.queue, conn := none }

/-- `close()` of client.js: clear the `reconnect` flag and destroy the
current socket.  (With no socket present the original throws a
`TypeError`; the claims only exercise `close` on a live client.) -/
def closeClient (s : TransportState) : TransportState :=
  { s with reconnect := false, conn := some .destroyed }

/-- `write(entry)` including its transport effect: serialize (computing
the identifier synchronously), then `ensureConnected(() => conn.write(...))`. -/
def fullWrite (maxE : Nat) (bufInit : Nat → Nat) (mid pid seq now : Nat)
    (s : TransportState) (entry : Entry) :
    Except String (WriteResult × TransportState) :=
  (clientWrite maxE bufInit mid pid seq now entry).map
    (fun r => (r, ensureConnected s r.bytes))

/-- Whether an `Except` computation succeeded. -/
def okBool {ε α : Type} : Except ε α → Bool
  | .ok _ => true
  | .error _ => false

/-- A concrete, plausible instantiation of the external limits, used for
concrete runs (the spec supplies no numeric values). -/
def exampleLimits : Limits :=
  { maxEntrySize := 1024, maxMessageSize := 255, maxCategorySize := 255
    maxTagSize := 255, maxTagsCount := 8, maxMetaCount := 16
    maxMetaKeySize := 32, maxMetaValueSize := 256, maxStackTraceCount := 10
    maxStackTracePathSize := 255, maxTTL := 3650 }

/-- A deliberately small instantiation of the external limits, keeping
concrete evaluations cheap. -/
def smallLimits : Limits :=
  { maxEntrySize := 64, maxMessageSize := 4, maxCategorySize := 255
    maxTagSize := 8, maxTagsCount := 4, maxMetaCount := 4
    maxMetaKeySize := 8, maxMetaValueSize := 16, maxStackTraceCount := 4
    maxStackTracePathSize := 16, maxTTL := 30 }

/-! ### Bit-packing lemmas -/

theorem natToBits_length (w v : Nat) : (natToBits w v).length = w := by
  induction w generalizing v with
  | zero => rfl
  | succ w ih => simp [natToBits, ih]

theorem natToBits_lt_two (w v : Nat) : ∀ b ∈ natToBits w v, b < 2 := by
  induction w generalizing v with
  | zero => simp [natToBits]
  | succ w ih =>
    intro b hb
    simp only [natToBits, List.mem_cons] at hb
    rcases hb with h | h
    · omega
    · exact ih v b h

theorem bitsToNat_foldl (l : List Nat) (acc : Nat) :
    l.foldl (fun acc bit => 2 * acc + bit) acc = acc * 2 ^ l.length + bitsToNat l := by
  induction l generalizing acc with
  | nil => simp [bitsToNat]
  | cons b bs ih =>
    simp only [List.foldl_cons, List.length_cons, bitsToNat]
    rw [ih (2 * acc + b), ih (2 * 0 + b)]
    ring

theorem bitsToNat_cons (b : Nat) (bs : List Nat) :
    bitsToNat (b :: bs) = b * 2 ^ bs.length + bitsToNat bs := by
  have h : bitsToNat (b :: bs)
      = bs.foldl (fun acc bit => 2 * acc + bit) (2 * 0 + b) := rfl
  rw [h, bitsToNat_foldl]
  ring

theorem bitsToNat_lt (l : List Nat) (h : ∀ b ∈ l, b < 2) :
    bitsToNat l < 2 ^ l.length := by
  induction l with
  | nil => simp [bitsToNat]
  | cons b bs ih =>
    rw [bitsToNat_cons]
    have hb : b < 2 := h b (List.mem_cons_self ..)
    have hbs := ih (fun x hx => h x (List.mem_cons_of_mem _ hx))
    have : b * 2 ^ bs.length ≤ 1 * 2 ^ bs.length :=
      Nat.mul_le_mul_right _ (by omega)
    simp only [List.length_cons, pow_succ]
    omega

theorem natToBits_mod (w v : Nat) : natToBits w (v % 2 ^ w) = natToBits w v := by
  induction w generalizing v with
  | zero => rfl
  | succ w ih =>
    simp only [natToBits, List.cons.injEq]
    refine ⟨?_, ?_⟩
    · rw [pow_succ, Nat.mod_mul_right_div_self]
      exact Nat.mod_mod_of_dvd _ (dvd_refl 2)
    · have h1 : v % 2 ^ (w + 1) % 2 ^ w = v % 2 ^ w :=
        Nat.mod_mod_of_dvd v ⟨2, by rw [pow_succ]⟩
      rw [← ih (v % 2 ^ (w + 1)), h1, ih v]

theorem bitsToNat_natToBits_mod (w v : Nat) :
    bitsToNat (natToBits w v) = v % 2 ^ w := by
  induction w generalizing v with
  | zero => simp [natToBits, bitsToNat, Nat.mod_one]
  | succ w ih =>
    rw [natToBits, bitsToNat_cons, natToBits_length, ih, pow_succ, Nat.mod_mul]
    ring

theorem bitsToNat_natToBits (w v : Nat) (hv : v < 2 ^ w) :
    bitsToNat (natToBits w v) = v := by
  rw [bitsToNat_natToBits_mod, Nat.mod_eq_of_lt hv]

theorem natToBits_bitsToNat (l : List Nat) (h : ∀ b ∈ l, b < 2) :
    natToBits l.length (bitsToNat l) = l := by
  induction l with
  | nil => rfl
  | cons b bs ih =>
    have hb : b < 2 := h b (List.mem_cons_self ..)
    have hbs : ∀ x ∈ bs, x < 2 := fun x hx => h x (List.mem_cons_of_mem _ hx)
    have hlt := bitsToNat_lt bs hbs
    have hval : bitsToNat (b :: bs) = b * 2 ^ bs.length + bitsToNat bs :=
      bitsToNat_cons b bs
    simp only [List.length_cons, natToBits, hval, List.cons.injEq]
    refine ⟨?_, ?_⟩
    · rw [Nat.mul_comm b, Nat.mul_add_div (Nat.pos_pow_of_pos _ (by norm_num)),
        Nat.div_eq_of_lt hlt, Nat.add_zero, Nat.mod_eq_of_lt hb]
    · rw [Nat.mul_comm b, ← natToBits_mod, Nat.mul_add_mod,
        Nat.mod_eq_of_lt hlt, ih hbs]

/-! ### Chunking lemmas -/

theorem symbolsFromBits_flatMap :
    ∀ l : List Nat, (∀ b ∈ l, b < 2) → l.length % 5 = 0 →
      (symbolsFromBits l).flatMap (natToBits 5) = l
  | [], _, _ => rfl
  | [_], _, h => by simp at h
  | [_, _], _, h => by simp at h
  | [_, _, _], _, h => by simp at h
  | [_, _, _, _], _, h => by simp at h
  | b0 :: b1 :: b2 :: b3 :: b4 :: rest, h2, h5 => by
    have hrest2 : ∀ b ∈ rest, b < 2 := fun b hb => h2 b (by simp [hb])
    have hrest5 : rest.length % 5 = 0 := by
      simp only [List.length_cons] at h5
      omega
    have hchunk : ∀ b ∈ [b0, b1, b2, b3, b4], b < 2 := by
      intro b hb
      apply h2
      simp only [List.mem_cons, List.mem_singleton] at hb ⊢
      tauto
    have h1 : natToBits 5 (bitsToNat [b0, b1, b2, b3, b4]) = [b0, b1, b2, b3, b4] :=
      natToBits_bitsToNat [b0, b1, b2, b3, b4] hchunk
    simp only [symbolsFromBits, List.flatMap_cons, h1,
      symbolsFromBits_flatMap rest hrest2 hrest5]
    rfl

theorem symbolsFromBits_lt :
    ∀ l : List Nat, (∀ b ∈ l, b < 2) →
      ∀ v ∈ symbolsFromBits l, v < 32
  | [], _ => by simp [symbolsFromBits]
  | [_], _ => by simp [symbolsFromBits]
  | [_, _], _ => by simp [symbolsFromBits]
  | [_, _, _], _ => by simp [symbolsFromBits]
  | [_, _, _, _], _ => by simp [symbolsFromBits]
  | b0 :: b1 :: b2 :: b3 :: b4 :: rest, h2 => by
    intro v hv
    have hrest2 : ∀ b ∈ rest, b < 2 := fun b hb => h2 b (by simp [hb])
    have hchunk : ∀ b ∈ [b0, b1, b2, b3, b4], b < 2 := by
      intro b hb
      apply h2
      simp only [List.mem_cons, List.mem_singleton] at hb ⊢
      tauto
    simp only [symbolsFromBits, List.mem_cons] at hv
    rcases hv with rfl | hv
    · have := bitsToNat_lt [b0, b1, b2, b3, b4] hchunk
      simpa using this
    · exact symbolsFromBits_lt rest hrest2 v hv

theorem bytesFromBits_short :
    ∀ l : List Nat, l.length < 8 → bytesFromBits l = []
  | [], _ => rfl
  | [_], _ => rfl
  | [_, _], _ => rfl
  | [_, _, _], _ => rfl
  | [_, _, _, _], _ => rfl
  | [_, _, _, _, _], _ => rfl
  | [_, _, _, _, _, _], _ => rfl
  | [_, _, _, _, _, _, _], _ => rfl
  | _ :: _ :: _ :: _ :: _ :: _ :: _ :: _ :: _, h => by
    simp only [List.length_cons] at h
    omega

theorem bytesFromBits_flatMap_append :
    ∀ bytes : List Nat, (∀ b ∈ bytes, b < 256) →
      ∀ tail : List Nat, tail.length < 8 →
        bytesFromBits (bytes.flatMap (natToBits 8) ++ tail) = bytes
  | [], _, tail, ht => by
    simpa using bytesFromBits_short tail ht
  | b :: bs, h, tail, ht => by
    have hb : b < 256 := h b (List.mem_cons_self ..)
    have hbs : ∀ x ∈ bs, x < 256 := fun x hx => h x (List.mem_cons_of_mem _ hx)
    have hexp : natToBits 8 b
        = [b / 2^7 % 2, b / 2^6 % 2, b / 2^5 % 2, b / 2^4 % 2,
           b / 2^3 % 2, b / 2^2 % 2, b / 2^1 % 2, b / 2^0 % 2] := rfl
    have hpack : bitsToNat (natToBits 8 b) = b :=
      bitsToNat_natToBits 8 b (by norm_num at hb ⊢; omega)
    rw [List.flatMap_cons, List.append_assoc, hexp]
    show bitsToNat (natToBits 8 b) :: bytesFromBits (bs.flatMap (natToBits 8) ++ tail)
        = b :: bs
    rw [hpack, bytesFromBits_flatMap_append bs hbs tail ht]

/-! ### Alphabet lemmas -/

theorem charset_indexOf_getD :
    ∀ v, v < 32 →
      BASE32HEX_CHARSET.indexOf (BASE32HEX_CHARSET.getD v '0') = v := by
  decide

theorem charset_getD_mem :
    ∀ v, v < 32 → BASE32HEX_CHARSET.getD v '0' ∈ BASE32HEX_CHARSET := by
  decide

theorem charset_getD_ne_pad :
    ∀ v, v < 32 → BASE32HEX_CHARSET.getD v '0' ≠ '=' := by
  decide

theorem charsToVals_map (vals : List Nat) (h : ∀ v ∈ vals, v < 32) :
    charsToVals (vals.map (fun v => BASE32HEX_CHARSET.getD v '0')) = .ok vals := by
  induction vals with
  | nil => rfl
  | cons v vs ih =>
    have hv : v < 32 := h v (List.mem_cons_self ..)
    have hvs : ∀ x ∈ vs, x < 32 := fun x hx => h x (List.mem_cons_of_mem _ hx)
    simp only [List.map_cons, charsToVals, if_pos (charset_getD_mem v hv),
      ih hvs, charset_indexOf_getD v hv, Except.map]

/-! ### Padding-stripping lemmas -/

theorem dropWhile_of_ne (p : Char → Bool) (l : List Char)
    (h : ∀ c ∈ l, p c = false) : l.dropWhile p = l := by
  cases l with
  | nil => rfl
  | cons c cs =>
    rw [List.dropWhile_cons_of_neg]
    simp [h c (List.mem_cons_self ..)]

theorem dropWhile_replicate_append (k : Nat) (l : List Char) :
    ((List.replicate k '=') ++ l).dropWhile (· = '=') = l.dropWhile (· = '=') := by
  induction k with
  | zero => rfl
  | succ k ih =>
    rw [List.replicate_succ, List.cons_append, List.dropWhile_cons_of_pos (by simp), ih]

theorem stripPadding_append (s : List Char) (k : Nat) (h : ∀ c ∈ s, c ≠ '=') :
    stripPadding (s ++ List.replicate k '=') = s := by
  unfold stripPadding
  rw [List.reverse_append, List.reverse_replicate, dropWhile_replicate_append,
    dropWhile_of_ne _ _ (by intro c hc; simp [h c (List.mem_reverse.mp hc)]),
    List.reverse_reverse]

/-! ### Round-trip: decode ∘ encode = id -/

theorem flatMap_natToBits_length (w : Nat) (l : List Nat) :
    (l.flatMap (natToBits w)).length = w * l.length := by
  induction l with
  | nil => simp
  | cons b bs ih =>
    simp only [List.flatMap_cons, List.length_append, List.length_cons,
      natToBits_length, ih]
    ring

/-- Core round-trip helper: decoding an encoding recovers the input bytes,
with or without `=` padding. -/
theorem decodeBaseN_encodeBaseN (input : List Nat) (hb : ∀ b ∈ input, b < 256)
    (pad : Bool) :
    decodeBaseN (encodeBaseN input pad) = .ok input := by
  unfold encodeBaseN decodeBaseN
  set bits := input.flatMap (natToBits 8) with hbits
  set bitArray := bits ++ List.replicate (ceilMul 5 bits.length - bits.length) 0
    with hbitArray
  have hbitslen : bits.length = 8 * input.length := by
    rw [hbits, flatMap_natToBits_length]
  have hbits2 : ∀ b ∈ bits, b < 2 := by
    intro b hbmem
    rw [hbits] at hbmem
    obtain ⟨x, _, hx⟩ := List.mem_flatMap.mp hbmem
    exact natToBits_lt_two 8 x b hx
  have harr2 : ∀ b ∈ bitArray, b < 2 := by
    intro b hbmem
    rw [hbitArray] at hbmem
    rcases List.mem_append.mp hbmem with h | h
    · exact hbits2 b h
    · rw [List.eq_of_mem_replicate h]; omega
  have hceil_ge : bits.length ≤ ceilMul 5 bits.length := by
    unfold ceilMul; omega
  have hceil_lt : ceilMul 5 bits.length < bits.length + 5 := by
    unfold ceilMul; omega
  have hceil_mod : ceilMul 5 bits.length % 5 = 0 := by
    unfold ceilMul; omega
  have harrlen : bitArray.length = ceilMul 5 bits.length := by
    rw [hbitArray]; simp only [List.length_append, List.length_replicate]; omega
  have harr5 : bitArray.length % 5 = 0 := by rw [harrlen]; exact hceil_mod
  have hsymlt : ∀ v ∈ symbolsFromBits bitArray, v < 32 :=
    symbolsFromBits_lt bitArray harr2
  have hnopad : ∀ c ∈ (symbolsFromBits bitArray).map
      (fun v => BASE32HEX_CHARSET.getD v '0'), c ≠ '=' := by
    intro c hc
    obtain ⟨v, hv, rfl⟩ := List.mem_map.mp hc
    exact charset_getD_ne_pad v (hsymlt v hv)
  have hstrip : stripPadding (if pad then
        ((symbolsFromBits bitArray).map (fun v => BASE32HEX_CHARSET.getD v '0')) ++
          List.replicate (ceilMul 8 ((symbolsFromBits bitArray).map
            (fun v => BASE32HEX_CHARSET.getD v '0')).length -
            ((symbolsFromBits bitArray).map
              (fun v => BASE32HEX_CHARSET.getD v '0')).length) '='
      else
        (symbolsFromBits bitArray).map (fun v => BASE32HEX_CHARSET.getD v '0'))
      = (symbolsFromBits bitArray).map (fun v => BASE32HEX_CHARSET.getD v '0') := by
    cases pad with
    | true => exact stripPadding_append _ _ hnopad
    | false =>
      have := stripPadding_append ((symbolsFromBits bitArray).map
        (fun v => BASE32HEX_CHARSET.getD v '0')) 0 hnopad
      simpa using this
  rw [hstrip, charsToVals_map _ hsymlt]
  simp only [Except.map]
  rw [symbolsFromBits_flatMap bitArray harr2 harr5, hbitArray,
    bytesFromBits_flatMap_append input hb _ (by simp only [List.length_replicate]; omega)]

/-- Round trip of the exported base32hex pair (shared helper). -/
theorem b32decode_b32encode (input : List Nat) (hb : ∀ b ∈ input, b < 256)
    (pad : Bool) :
    b32decode (b32encode input pad) = .ok input :=
  decodeBaseN_encodeBaseN input hb pad

/-! ### Except and buffer-write inversion lemmas -/

theorem ok_bind {ε α β : Type} (a : α) (f : α → Except ε β) :
    (Except.ok a >>= f : Except ε β) = f a := rfl

theorem error_bind {ε α β : Type} (e : ε) (f : α → Except ε β) :
    ((Except.error e : Except ε α) >>= f) = .error e := rfl

theorem okBool_exists {ε α : Type} {x : Except ε α} (h : okBool x = true) :
    ∃ a, x = .ok a := by
  cases x with
  | ok a => exact ⟨a, rfl⟩
  | error e => simp [okBool] at h

theorem beBytes_length (len v : Nat) : (beBytes len v).length = len := by
  simp [beBytes]

theorem beBytes_getD (len v j : Nat) (hj : j < len) :
    (beBytes len v).getD j 0 = v / 2 ^ (8 * (len - 1 - j)) % 256 := by
  simp [beBytes, List.getD_eq_getElem?_getD, List.getElem?_map,
    List.getElem?_range hj]

theorem beBytes_lt (len v : Nat) : ∀ x ∈ beBytes len v, x < 256 := by
  intro x hx
  simp only [beBytes, List.mem_map] at hx
  obtain ⟨j, _, rfl⟩ := hx
  exact Nat.mod_lt _ (by norm_num)

theorem writeUIntBE_ok {maxE : Nat} {b : Nat → Nat} {v : Int} {off len : Nat}
    {b' : Nat → Nat} (h : writeUIntBE maxE b v off len = .ok b') :
    0 ≤ v ∧ v < (2 ^ (8 * len) : Nat) ∧ off + len ≤ maxE ∧
    (∀ i, i < off ∨ off + len ≤ i → b' i = b i) ∧
    (∀ j, j < len → b' (off + j) = v.toNat / 2 ^ (8 * (len - 1 - j)) % 256) := by
  unfold writeUIntBE at h
  split at h
  · rename_i hc
    obtain ⟨h0, h1, h2⟩ := hc
    injection h with h
    subst h
    refine ⟨h0, h1, h2, ?_, ?_⟩
    · intro i hi
      unfold writeBytesAt
      rw [if_neg]
      rw [beBytes_length]
      omega
    · intro j hj
      unfold writeBytesAt
      rw [if_pos (by rw [beBytes_length]; omega), Nat.add_sub_cancel_left,
        beBytes_getD _ _ _ hj]
  · exact absurd h (by simp)

theorem writeUInt8_inv {maxE : Nat} {b : Nat → Nat} {v : Int} {off : Nat}
    {out : (Nat → Nat) × Nat} (h : writeUInt8 maxE b v off = .ok out) :
    writeUIntBE maxE b v off 1 = .ok out.1 ∧ out.2 = off + 1 := by
  unfold writeUInt8 at h
  cases h1 : writeUIntBE maxE b v off 1 with
  | error e => rw [h1] at h; exact absurd h (by simp [Except.map])
  | ok b' =>
    rw [h1] at h
    simp only [Except.map, Except.ok.injEq] at h
    subst h
    exact ⟨rfl, rfl⟩

theorem writeUInt16BE_inv {maxE : Nat} {b : Nat → Nat} {v : Int} {off : Nat}
    {out : (Nat → Nat) × Nat} (h : writeUInt16BE maxE b v off = .ok out) :
    writeUIntBE maxE b v off 2 = .ok out.1 ∧ out.2 = off + 2 := by
  unfold writeUInt16BE at h
  cases h1 : writeUIntBE maxE b v off 2 with
  | error e => rw [h1] at h; exact absurd h (by simp [Except.map])
  | ok b' =>
    rw [h1] at h
    simp only [Except.map, Except.ok.injEq] at h
    subst h
    exact ⟨rfl, rfl⟩

theorem writeInt16BE_frame {maxE : Nat} {b : Nat → Nat} {v : Int} {off : Nat}
    {out : (Nat → Nat) × Nat} (h : writeInt16BE maxE b v off = .ok out) :
    off ≤ out.2 ∧ ∀ i, i < off → out.1 i = b i := by
  unfold writeInt16BE at h
  split at h
  · injection h with h
    subst h
    refine ⟨by omega, ?_⟩
    intro i hi
    dsimp only [writeBytesAt]
    rw [if_neg]
    rw [beBytes_length]
    omega
  · exact absurd h (by simp)

theorem writeStr_ok {maxE : Nat} {b : Nat → Nat} {s : List Char} {off : Nat}
    {out : (Nat → Nat) × Nat} (h : writeStr maxE b s off = .ok out) :
    (bytesJS s : Int) < (256 : Nat) ∧ off + 1 ≤ maxE ∧
    out.2 = off + 1 + (utf8Fit s (maxE - (off + 1))).length ∧
    out.1 off = bytesJS s ∧
    (∀ j, j < (utf8Fit s (maxE - (off + 1))).length →
      out.1 (off + 1 + j) = (utf8Fit s (maxE - (off + 1))).getD j 0) ∧
    (∀ i, i < off → out.1 i = b i) := by
  unfold writeStr at h
  cases h1 : writeUInt8 maxE b (bytesJS s) off with
  | error e => rw [h1, error_bind] at h; exact absurd h (by simp)
  | ok p =>
    rw [h1, ok_bind] at h
    obtain ⟨b1, o1⟩ := p
    obtain ⟨hw, ho⟩ := writeUInt8_inv h1
    obtain ⟨hv0, hvlt, hbound, hframe, hval⟩ := writeUIntBE_ok hw
    dsimp only [] at h ho
    subst ho
    injection h with h
    subst h
    dsimp only []
    have hlt : bytesJS s < 256 := by exact_mod_cast hvlt
    have hpref : b1 off = bytesJS s := by
      have h0 := hval 0 (by norm_num)
      simpa [Nat.mod_eq_of_lt hlt] using h0
    refine ⟨by simpa using hvlt, by omega, rfl, ?_, ?_, ?_⟩
    · unfold writeBytesAt
      rw [if_neg (by omega)]
      exact hpref
    · intro j hj
      unfold writeBytesAt
      rw [if_pos (by omega), Nat.add_sub_cancel_left]
    · intro i hi
      unfold writeBytesAt
      rw [if_neg (by omega)]
      exact hframe i (by omega)

theorem writeStr_frame {maxE : Nat} {b : Nat → Nat} {s : List Char} {off : Nat}
    {out : (Nat → Nat) × Nat} (h : writeStr maxE b s off = .ok out) :
    off ≤ out.2 ∧ ∀ i, i < off → out.1 i = b i := by
  obtain ⟨_, _, hsz, _, _, hfr⟩ := writeStr_ok h
  exact ⟨by omega, hfr⟩

theorem writeBigStr_frame {maxE : Nat} {b : Nat → Nat} {s : List Char} {off : Nat}
    {out : (Nat → Nat) × Nat} (h : writeBigStr maxE b s off = .ok out) :
    off ≤ out.2 ∧ ∀ i, i < off → out.1 i = b i := by
  unfold writeBigStr at h
  cases h1 : writeUInt16BE maxE b (bytesJS s) off with
  | error e => rw [h1, error_bind] at h; exact absurd h (by simp)
  | ok p =>
    rw [h1, ok_bind] at h
    obtain ⟨b1, o1⟩ := p
    obtain ⟨hw, ho⟩ := writeUInt16BE_inv h1
    obtain ⟨_, _, _, hframe, _⟩ := writeUIntBE_ok hw
    dsimp only [] at h ho
    subst ho
    injection h with h
    subst h
    dsimp only []
    refine ⟨by omega, ?_⟩
    intro i hi
    unfold writeBytesAt
    rw [if_neg (by omega)]
    exact hframe i (by omega)

theorem writeUInt8_frame {maxE : Nat} {b : Nat → Nat} {v : Int} {off : Nat}
    {out : (Nat → Nat) × Nat} (h : writeUInt8 maxE b v off = .ok out) :
    off ≤ out.2 ∧ ∀ i, i < off → out.1 i = b i := by
  obtain ⟨hw, ho⟩ := writeUInt8_inv h
  obtain ⟨_, _, _, hframe, _⟩ := writeUIntBE_ok hw
  exact ⟨by omega, fun i hi => hframe i (by omega)⟩

theorem writeUInt16BE_frame {maxE : Nat} {b : Nat → Nat} {v : Int} {off : Nat}
    {out : (Nat → Nat) × Nat} (h : writeUInt16BE maxE b v off = .ok out) :
    off ≤ out.2 ∧ ∀ i, i < off → out.1 i = b i := by
  obtain ⟨hw, ho⟩ := writeUInt16BE_inv h
  obtain ⟨_, _, _, hframe, _⟩ := writeUIntBE_ok hw
  exact ⟨by omega, fun i hi => hframe i (by omega)⟩

/-- Frame/monotonicity invariant over the serialization loops: if every
step only writes at or above the running offset, the whole fold does. -/
theorem foldlM_frame {α : Type}
    (step : ((Nat → Nat) × Nat) → α → Except String ((Nat → Nat) × Nat))
    (hstep : ∀ bs a out, step bs a = .ok out →
      bs.2 ≤ out.2 ∧ ∀ i, i < bs.2 → out.1 i = bs.1 i) :
    ∀ (l : List α) (bs out), l.foldlM step bs = .ok out →
      bs.2 ≤ out.2 ∧ ∀ i, i < bs.2 → out.1 i = bs.1 i := by
  intro l
  induction l with
  | nil =>
    intro bs out h
    simp only [List.foldlM_nil] at h
    injection h with h
    subst h
    exact ⟨le_refl _, fun _ _ => rfl⟩
  | cons a as ih =>
    intro bs out h
    simp only [List.foldlM_cons] at h
    cases h1 : step bs a with
    | error e => rw [h1, error_bind] at h; exact absurd h (by simp)
    | ok mid =>
      rw [h1, ok_bind] at h
      obtain ⟨hs1, hf1⟩ := hstep bs a mid h1
      obtain ⟨hs2, hf2⟩ := ih mid out h
      exact ⟨le_trans hs1 hs2, fun i hi => by rw [hf2 i (by omega), hf1 i hi]⟩

theorem bind_ok_iff {ε α β : Type} {x : Except ε α} {f : α → Except ε β}
    {r : β} : (x >>= f) = .ok r ↔ ∃ a, x = .ok a ∧ f a = .ok r := by
  cases x with
  | ok a => simp [ok_bind]
  | error e => simp [error_bind]

/-- Full symbolic execution of a successful `write`: the identifier is the
base32hex rendering of the final buffer's bytes `[6..18)`; those bytes hold
the big-endian timestamp, machine id, process id and masked sequence; the
byte at 19 is the message's byte-length prefix, followed by the message's
UTF-8 bytes; and the total size covers all of it. -/
theorem clientWrite_facts {maxE : Nat} {bufInit : Nat → Nat}
    {mid pid seq now : Nat} {e : Entry} {r : WriteResult}
    (h : clientWrite maxE bufInit mid pid seq now e = .ok r) :
    r.xid = b32encode ((List.range 12).map (fun i => r.buf (6 + i))) ∧
    r.bytes = (List.range r.size).map r.buf ∧
    (∀ j, j < 4 → r.buf (6 + j) = now / 2 ^ (8 * (3 - j)) % 256) ∧
    (∀ j, j < 3 → r.buf (10 + j) = mid / 2 ^ (8 * (2 - j)) % 256) ∧
    (∀ j, j < 2 → r.buf (13 + j) = pid / 2 ^ (8 * (1 - j)) % 256) ∧
    (∀ j, j < 3 → r.buf (15 + j) = (seq % 2 ^ 24) / 2 ^ (8 * (2 - j)) % 256) ∧
    mid < 2 ^ 24 ∧ pid < 2 ^ 16 ∧ now < 2 ^ 32 ∧
    r.buf 19 = bytesJS e.message ∧
    (∀ j, j < (utf8Fit e.message (maxE - 20)).length →
      r.buf (20 + j) = (utf8Fit e.message (maxE - 20)).getD j 0) ∧
    29 + (utf8Fit e.message (maxE - 20)).length ≤ r.size := by
  unfold clientWrite at h
  rw [bind_ok_iff] at h
  obtain ⟨b1, hB, h⟩ := h
  rw [bind_ok_iff] at h
  obtain ⟨b2, hT, h⟩ := h
  rw [bind_ok_iff] at h
  obtain ⟨b3, hM, h⟩ := h
  rw [bind_ok_iff] at h
  obtain ⟨b4, hP, h⟩ := h
  rw [bind_ok_iff] at h
  obtain ⟨b5, hS, h⟩ := h
  rw [bind_ok_iff] at h
  obtain ⟨p6, hSev, h⟩ := h
  obtain ⟨b6, o6⟩ := p6
  dsimp only [] at h
  rw [bind_ok_iff] at h
  obtain ⟨p7, hMsg, h⟩ := h
  obtain ⟨b7, o7⟩ := p7
  dsimp only [] at h
  rw [bind_ok_iff] at h
  obtain ⟨p8, hCat, h⟩ := h
  obtain ⟨b8, o8⟩ := p8
  dsimp only [] at h
  rw [bind_ok_iff] at h
  obtain ⟨p9, hTagC, h⟩ := h
  obtain ⟨b9, o9⟩ := p9
  dsimp only [] at h
  rw [bind_ok_iff] at h
  obtain ⟨p10, hTags, h⟩ := h
  obtain ⟨b10, o10⟩ := p10
  dsimp only [] at h
  rw [bind_ok_iff] at h
  obtain ⟨p11, hMetC, h⟩ := h
  obtain ⟨b11, o11⟩ := p11
  dsimp only [] at h
  rw [bind_ok_iff] at h
  obtain ⟨p12, hMet, h⟩ := h
  obtain ⟨b12, o12⟩ := p12
  dsimp only [] at h
  rw [bind_ok_iff] at h
  obtain ⟨p13, hMetaC, h⟩ := h
  obtain ⟨b13, o13⟩ := p13
  dsimp only [] at h
  rw [bind_ok_iff] at h
  obtain ⟨p14, hMeta, h⟩ := h
  obtain ⟨b14, o14⟩ := p14
  dsimp only [] at h
  rw [bind_ok_iff] at h
  obtain ⟨p15, hTrC, h⟩ := h
  obtain ⟨b15, o15⟩ := p15
  dsimp only [] at h
  rw [bind_ok_iff] at h
  obtain ⟨p16, hTr, h⟩ := h
  obtain ⟨b16, o16⟩ := p16
  dsimp only [] at h
  rw [bind_ok_iff] at h
  obtain ⟨p17, hTtlE, h⟩ := h
  obtain ⟨b17, o17⟩ := p17
  dsimp only [] at h
  rw [bind_ok_iff] at h
  obtain ⟨p18, hTtlM, h⟩ := h
  obtain ⟨b18, o18⟩ := p18
  dsimp only [] at h
  rw [bind_ok_iff] at h
  obtain ⟨bf, hSz, h⟩ := h
  injection h with h
  subst h
  dsimp only []
  simp only [ofsSize, ofsBucket, ofsTime, ofsMid, ofsPid, ofsSeq, ofsSev]
    at hB hT hM hP hS hSev hSz ⊢
  -- header writes
  have hTok := writeUIntBE_ok hT
  have hMok := writeUIntBE_ok hM
  have hPok := writeUIntBE_ok hP
  have hSok := writeUIntBE_ok hS
  have hsev := writeUInt8_inv hSev
  have ho6 : o6 = 19 := hsev.2
  subst ho6
  have hSevOk := writeUIntBE_ok hsev.1
  have hmsg := writeStr_ok hMsg
  dsimp only [] at hmsg
  simp only [show (19 : Nat) + 1 = 20 from rfl] at hmsg
  have ho7 : o7 = 20 + (utf8Fit e.message (maxE - 20)).length := hmsg.2.2.1
  -- monotone offsets of the trailing sections
  have f8 := writeUInt8_frame hCat
  have f9 := writeUInt8_frame hTagC
  have f10 := foldlM_frame _ (fun bs a out hh => writeStr_frame hh) _ _ _ hTags
  have f11 := writeUInt8_frame hMetC
  have f12 := foldlM_frame _ (fun bs a out hh => by
    rw [bind_ok_iff] at hh
    obtain ⟨p, hws, hh⟩ := hh
    cases hg : (e.metricValues.getD []).get? a with
    | none => rw [hg] at hh; exact absurd hh (by simp)
    | some v =>
      rw [hg] at hh
      dsimp only [] at hh
      obtain ⟨hm1, hf1⟩ := writeStr_frame hws
      obtain ⟨hm2, hf2⟩ := writeInt16BE_frame hh
      exact ⟨by omega, fun i hi => by rw [hf2 i (by omega), hf1 i hi]⟩) _ _ _ hMet
  have f13 := writeUInt8_frame hMetaC
  have f14 := foldlM_frame _ (fun bs a out hh => by
    rw [bind_ok_iff] at hh
    obtain ⟨p, hws, hh⟩ := hh
    cases hg : e.metaValues.get? a with
    | none => rw [hg] at hh; exact absurd hh (by simp)
    | some v =>
      rw [hg] at hh
      dsimp only [] at hh
      obtain ⟨hm1, hf1⟩ := writeStr_frame hws
      obtain ⟨hm2, hf2⟩ := writeBigStr_frame hh
      exact ⟨by omega, fun i hi => by rw [hf2 i (by omega), hf1 i hi]⟩) _ _ _ hMeta
  have f15 := writeUInt8_frame hTrC
  have f16 := foldlM_frame _ (fun bs a out hh => by
    rw [bind_ok_iff] at hh
    obtain ⟨p, hws, hh⟩ := hh
    cases hg : (e.traceLines.getD []).get? a with
    | none => rw [hg] at hh; exact absurd hh (by simp)
    | some v =>
      rw [hg] at hh
      dsimp only [] at hh
      obtain ⟨hm1, hf1⟩ := writeStr_frame hws
      obtain ⟨hm2, hf2⟩ := writeUInt16BE_frame hh
      exact ⟨by omega, fun i hi => by rw [hf2 i (by omega), hf1 i hi]⟩) _ _ _ hTr
  have f17 := writeUInt16BE_frame hTtlE
  have f18 := writeUInt16BE_frame hTtlM
  have ho17 : o17 = o16 + 2 := (writeUInt16BE_inv hTtlE).2
  have ho18 : o18 = o17 + 2 := (writeUInt16BE_inv hTtlM).2
  have ho8 : o8 = o7 + 1 := (writeUInt8_inv hCat).2
  have ho9 : o9 = o8 + 1 := (writeUInt8_inv hTagC).2
  have ho11 : o11 = o10 + 1 := (writeUInt8_inv hMetC).2
  have ho13 : o13 = o12 + 1 := (writeUInt8_inv hMetaC).2
  have ho15 : o15 = o14 + 1 := (writeUInt8_inv hTrC).2
  have hfin := writeUIntBE_ok hSz
  dsimp only [] at f8 f9 f10 f11 f12 f13 f14 f15 f16 f17 f18 ho17 ho18 ho8 ho9 ho11 ho13 ho15
  -- every byte below the message end survives the trailing sections,
  -- except [0,2) which the final size write overwrites
  have fPost : ∀ i, 2 ≤ i → i < o7 → bf i = b7 i := by
    intro i h2 hi
    rw [hfin.2.2.2.1 i (by omega), f18.2 i (by omega), f17.2 i (by omega),
      f16.2 i (by omega), f15.2 i (by omega), f14.2 i (by omega),
      f13.2 i (by omega), f12.2 i (by omega), f11.2 i (by omega),
      f10.2 i (by omega), f9.2 i (by omega), f8.2 i (by omega)]
  have fMsg : ∀ i, i < 19 → b7 i = b6 i := hmsg.2.2.2.2.2
  have fSev : ∀ i, i < 18 ∨ 19 ≤ i → b6 i = b5 i := hSevOk.2.2.2.1
  have fS : ∀ i, i < 15 ∨ 18 ≤ i → b5 i = b4 i := hSok.2.2.2.1
  have fP : ∀ i, i < 13 ∨ 15 ≤ i → b4 i = b3 i := hPok.2.2.2.1
  have fM : ∀ i, i < 10 ∨ 13 ≤ i → b3 i = b2 i := hMok.2.2.2.1
  refine ⟨trivial, trivial, ?_, ?_, ?_, ?_, ?_, ?_, ?_, ?_, ?_, ?_⟩
  · intro j hj
    have hv := hTok.2.2.2.2 j hj
    have harith : 8 * (4 - 1 - j) = 8 * (3 - j) := by omega
    rw [harith] at hv
    rw [fPost (6 + j) (by omega) (by omega), fMsg (6 + j) (by omega),
      fSev (6 + j) (by omega), fS (6 + j) (by omega), fP (6 + j) (by omega),
      fM (6 + j) (by omega), hv, Int.toNat_natCast]
  · intro j hj
    have hv := hMok.2.2.2.2 j hj
    have harith : 8 * (3 - 1 - j) = 8 * (2 - j) := by omega
    rw [harith] at hv
    rw [fPost (10 + j) (by omega) (by omega), fMsg (10 + j) (by omega),
      fSev (10 + j) (by omega), fS (10 + j) (by omega), fP (10 + j) (by omega),
      hv, Int.toNat_natCast]
  · intro j hj
    have hv := hPok.2.2.2.2 j hj
    have harith : 8 * (2 - 1 - j) = 8 * (1 - j) := by omega
    rw [harith] at hv
    rw [fPost (13 + j) (by omega) (by omega), fMsg (13 + j) (by omega),
      fSev (13 + j) (by omega), fS (13 + j) (by omega), hv, Int.toNat_natCast]
  · intro j hj
    have hv := hSok.2.2.2.2 j hj
    have harith : 8 * (3 - 1 - j) = 8 * (2 - j) := by omega
    rw [harith] at hv
    rw [fPost (15 + j) (by omega) (by omega), fMsg (15 + j) (by omega),
      fSev (15 + j) (by omega), hv, Int.toNat_natCast]
  · exact_mod_cast hMok.2.1
  · exact_mod_cast hPok.2.1
  · exact_mod_cast hTok.2.1
  · rw [fPost 19 (by omega) (by omega)]
    exact hmsg.2.2.2.1
  · intro j hj
    rw [fPost (20 + j) (by omega) (by omega)]
    have hv := hmsg.2.2.2.2.1 j hj
    have harith : 19 + 1 + j = 20 + j := by omega
    rw [harith] at hv
    exact hv
  · omega

theorem slice_map_range {n a k : Nat} (f : Nat → Nat) (h : a + k ≤ n) :
    (((List.range n).map f).drop a).take k = (List.range k).map (fun i => f (a + i)) := by
  apply List.ext_getElem
  · simp
    omega
  · intro i h1 h2
    simp only [List.getElem_take, List.getElem_drop, List.getElem_map,
      List.getElem_range]

/-! ### Claim theorems -/

/-- C1 (amended): for every entry written by the transport, the 12 raw
identifier bytes occupy bytes `[6..18)` of the wire message — 12 bytes
starting at the timestamp offset 6: big-endian timestamp at `[6..10)`,
machine fingerprint at `[10..13)`, process id at `[13..15)`, masked
sequence at `[15..18)` — and the identifier text returned to the caller is
the Base-N rendering of exactly those header bytes, so decoding the
returned text recovers the original 12 raw bytes of the message header. -/
theorem c1_identifier_from_header {maxE : Nat} {bufInit : Nat → Nat}
    {mid pid seq now : Nat} {e : Entry} {r : WriteResult}
    (h : clientWrite maxE bufInit mid pid seq now e = .ok r) :
    r.xid = b32encode ((List.range 12).map (fun i => r.buf (6 + i))) ∧
    (∀ j, j < 4 → r.buf (6 + j) = now / 2 ^ (8 * (3 - j)) % 256) ∧
    (∀ j, j < 3 → r.buf (10 + j) = mid / 2 ^ (8 * (2 - j)) % 256) ∧
    (∀ j, j < 2 → r.buf (13 + j) = pid / 2 ^ (8 * (1 - j)) % 256) ∧
    (∀ j, j < 3 → r.buf (15 + j) = (seq % 2 ^ 24) / 2 ^ (8 * (2 - j)) % 256) ∧
    18 ≤ r.size ∧
    (r.bytes.drop 6).take 12 = (List.range 12).map (fun i => r.buf (6 + i)) ∧
    b32decode r.xid = .ok ((List.range 12).map (fun i => r.buf (6 + i))) := by
  obtain ⟨hxid, hbytes, vT, vM, vP, vS, hmid, hpid, hnow, hpre, hpay, hsz⟩ :=
    clientWrite_facts h
  have hlt : ∀ b ∈ (List.range 12).map (fun i => r.buf (6 + i)), b < 256 := by
    intro b hb
    obtain ⟨i, hi, rfl⟩ := List.mem_map.mp hb
    rw [List.mem_range] at hi
    rcases Nat.lt_or_ge i 4 with hc | hc
    · rw [vT i hc]; exact Nat.mod_lt _ (by norm_num)
    · rcases Nat.lt_or_ge i 7 with hc2 | hc2
      · have heq : 6 + i = 10 + (i - 4) := by omega
        rw [heq, vM (i - 4) (by omega)]; exact Nat.mod_lt _ (by norm_num)
      · rcases Nat.lt_or_ge i 9 with hc3 | hc3
        · have heq : 6 + i = 13 + (i - 7) := by omega
          rw [heq, vP (i - 7) (by omega)]; exact Nat.mod_lt _ (by norm_num)
        · have heq : 6 + i = 15 + (i - 9) := by omega
          rw [heq, vS (i - 9) (by omega)]; exact Nat.mod_lt _ (by norm_num)
  refine ⟨hxid, vT, vM, vP, vS, by omega, ?_, ?_⟩
  · rw [hbytes]
    exact slice_map_range r.buf (by omega)
  · rw [hxid]
    exact b32decode_b32encode _ hlt false

/-- C1 counterexample (the claim as stated): the identifier text is not
the rendering of wire-message bytes `[10..22)` — at a concrete write the
returned text differs from the Base-N rendering of that byte range. -/
theorem c1_not_bytes_10_22 :
    (clientWrite 64 (fun _ => 0) 66051 1029 394500 100
        { bucketId := 5, severity := 7, message := "hi".toList }).map
      (fun r => decide (r.xid = b32encode ((r.bytes.drop 10).take 12)))
      = .ok false := by
  rfl

/-- C1 witness: a concrete successful write, with its identifier decoding
back to the header slice. -/
theorem c1_identifier_from_header_witness :
    ∃ r, clientWrite 64 (fun _ => 0) 66051 1029 394500 100
        { bucketId := 5, severity := 7, message := "hi".toList } = .ok r ∧
      b32decode r.xid = .ok ((List.range 12).map (fun i => r.buf (6 + i))) := by
  obtain ⟨r, hr⟩ := okBool_exists
    (x := clientWrite 64 (fun _ => 0) 66051 1029 394500 100
      { bucketId := 5, severity := 7, message := "hi".toList }) rfl
  exact ⟨r, hr, (c1_identifier_from_header hr).2.2.2.2.2.2.2⟩

/-- C2: for every byte sequence `b`, decoding the Base-N encoding of `b`
yields `b` again, both with `=` padding and unpadded (`g = 5` bits per
symbol, `p = 8` symbols per padding unit, over the 32-symbol lowercase
base32hex alphabet). -/
theorem c2_base32_roundtrip (input : List Nat) (hb : ∀ b ∈ input, b < 256)
    (includePadding : Bool) :
    b32decode (b32encode input includePadding) = .ok input :=
  b32decode_b32encode input hb includePadding

/-- C2 witness: a concrete round trip through both padding modes. -/
theorem c2_base32_roundtrip_witness :
    (∀ b ∈ [202, 254, 186, 190, 0], b < 256) ∧
    b32decode (b32encode [202, 254, 186, 190, 0] true) = .ok [202, 254, 186, 190, 0] ∧
    b32decode (b32encode [202, 254, 186, 190, 0] false) = .ok [202, 254, 186, 190, 0] :=
  ⟨by decide, c2_base32_roundtrip [202, 254, 186, 190, 0] (by decide) true,
    c2_base32_roundtrip [202, 254, 186, 190, 0] (by decide) false⟩

theorem map_ok_iff {ε α β : Type} {x : Except ε α} {f : α → β} {r : β} :
    x.map f = .ok r ↔ ∃ a, x = .ok a ∧ f a = r := by
  cases x with
  | ok a => simp [Except.map]
  | error e => simp [Except.map]

/-- C3 (code bug): a severity-level logging call CAN raise an error.
Logging a caught error whose stack reports a frame at line 70000 makes the
trace-line `writeUInt16BE` throw `ERR_OUT_OF_RANGE` (70000 ≥ 2^16), so the
call does not return an identifier. -/
theorem c3_logging_call_throws :
    okBool (logEntry exampleLimits (fun _ => 0) 0 0 0 0 ERROR 1 0 0
      [.err "boom".toList [⟨some "/app/server.js".toList, some 70000⟩]] [])
      = false := by
  rfl

/-- C4 (code bug): `close()` is not terminal.  The `reconnect` flag it
clears is never read by `ensureConnected`, so a `write` issued after the
connection teardown completes initiates a fresh connection attempt. -/
theorem c4_write_after_close_reconnects (s : TransportState) (cb : List Nat) :
    (onClose (closeClient s) false).reconnect = false ∧
    (ensureConnected (onClose (closeClient s) false) cb).attempts
      = s.attempts + 1 ∧
    (ensureConnected (onClose (closeClient s) false) cb).conn
      = some .connecting := by
  refine ⟨rfl, ?_, ?_⟩ <;> simp [ensureConnected, onClose, closeClient]

/-- C8: on the transport's open-to-absent transition ('close' event), an
error close drops every pending queued write, while a graceful close
retains them all unchanged for the next connection attempt. -/
theorem c8_close_queue_policy (s : TransportState) :
    (onClose s true).queue = [] ∧ (onClose s true).conn = none ∧
    (onClose s false).queue = s.queue ∧ (onClose s false).conn = none :=
  ⟨rfl, rfl, rfl, rfl⟩

/-- C9: a write issued while the transport is absent returns an identifier
and initiates exactly one connection attempt; a second write issued while
the attempt is still in flight enqueues its send behind the first and does
not initiate a second concurrent attempt. -/
theorem c9_single_connection_attempt {maxE : Nat} {bufInit : Nat → Nat}
    {mid pid seq now : Nat} {e : Entry} {s : TransportState}
    (hs : s.conn = none)
    (h : okBool (clientWrite maxE bufInit mid pid seq now e) = true) :
    ∃ r s1, fullWrite maxE bufInit mid pid seq now s e = .ok (r, s1) ∧
      clientWrite maxE bufInit mid pid seq now e = .ok r ∧
      s1.attempts = s.attempts + 1 ∧
      s1.conn = some .connecting ∧
      s1.queue = s.queue ++ [r.bytes] ∧
      ∀ (maxE2 : Nat) (bufInit2 : Nat → Nat) (mid2 pid2 seq2 now2 : Nat)
        (e2 : Entry) (r2 : WriteResult) (s2 : TransportState),
        fullWrite maxE2 bufInit2 mid2 pid2 seq2 now2 s1 e2 = .ok (r2, s2) →
        s2.attempts = s1.attempts ∧ s2.queue = s1.queue ++ [r2.bytes] ∧
        s2.conn = some .connecting := by
  obtain ⟨r, hr⟩ := okBool_exists h
  have hens : ensureConnected s r.bytes
      = { s with
          queue := s.queue ++ [r.bytes],
          conn := some .connecting,
          attempts := s.attempts + 1 } := by
    simp [ensureConnected, hs]
  refine ⟨r, ensureConnected s r.bytes, ?_, hr, ?_, ?_, ?_, ?_⟩
  · unfold fullWrite
    rw [hr]
    rfl
  · rw [hens]
  · rw [hens]
  · rw [hens]
  · intro maxE2 bufInit2 mid2 pid2 seq2 now2 e2 r2 s2 h2
    unfold fullWrite at h2
    rw [map_ok_iff] at h2
    obtain ⟨r2', hc2, h2⟩ := h2
    injection h2 with hr2 hs2
    subst hr2
    subst hs2
    rw [hens]
    simp [ensureConnected]

/-- C9 witness: a concrete absent-state write performs exactly one attempt. -/
theorem c9_single_connection_attempt_witness :
    ∃ r s1, fullWrite 64 (fun _ => 0) 1 2 3 4
        (⟨none, [], true, 0, []⟩ : TransportState)
        { bucketId := 0, severity := 6, message := [] } = .ok (r, s1) ∧
      s1.attempts = 0 + 1 ∧ s1.conn = some .connecting := by
  obtain ⟨r, s1, hfw, _, hatt, hconn, _, _⟩ :=
    @c9_single_connection_attempt 64 (fun _ => 0) 1 2 3 4
      { bucketId := 0, severity := 6, message := [] }
      (⟨none, [], true, 0, []⟩ : TransportState) rfl rfl
  exact ⟨r, s1, hfw, hatt, hconn⟩

/-- C10: when a connection attempt succeeds with pending writes queued, the
open transition pops and sends exactly one pending item — the head — and
leaves the rest of the queue untouched. -/
theorem c10_open_pops_one (s : TransportState) (cb : List Nat)
    (rest : List (List Nat)) (h : s.queue = cb :: rest) :
    (onConnect s).conn = some .opened ∧
    (onConnect s).sent = s.sent ++ [cb] ∧
    (onConnect s).queue = rest := by
  unfold onConnect
  rw [h]
  exact ⟨rfl, rfl, rfl⟩

/-- C10 witness: with three queued writes, opening sends only the first. -/
theorem c10_open_pops_one_witness :
    (onConnect ⟨some .connecting, [[1], [2], [3]], true, 1, []⟩).conn
      = some .opened ∧
    (onConnect ⟨some .connecting, [[1], [2], [3]], true, 1, []⟩).sent
      = [] ++ [[1]] ∧
    (onConnect ⟨some .connecting, [[1], [2], [3]], true, 1, []⟩).queue
      = [[2], [3]] :=
  c10_open_pops_one ⟨some .connecting, [[1], [2], [3]], true, 1, []⟩
    [1] [[2], [3]] rfl

/-! ### Entry-builder lemmas -/

theorem foldl_pred {α β : Type} (P : β → Prop) (step : β → α → β)
    (h : ∀ b a, P b → P (step b a)) :
    ∀ (l : List α) (b : β), P b → P (l.foldl step b) := by
  intro l
  induction l with
  | nil => intro b hb; exact hb
  | cons a as ih => intro b hb; exact ih _ (h b a hb)

/-- `setStackTrace` touches only the trace fields. -/
theorem setStackTrace_preserves (L : Limits) (e : Entry) (fs : List Frame) :
    (setStackTrace L e fs).category = e.category ∧
    (setStackTrace L e fs).ttlEntry = e.ttlEntry ∧
    (setStackTrace L e fs).ttlMeta = e.ttlMeta ∧
    (setStackTrace L e fs).message = e.message ∧
    (setStackTrace L e fs).tags = e.tags ∧
    (setStackTrace L e fs).metaKeys = e.metaKeys ∧
    (setStackTrace L e fs).metaValues = e.metaValues ∧
    (setStackTrace L e fs).metricKeys = e.metricKeys ∧
    (setStackTrace L e fs).metricValues = e.metricValues := by
  unfold setStackTrace
  split
  · exact ⟨rfl, rfl, rfl, rfl, rfl, rfl, rfl, rfl, rfl⟩
  · refine foldl_pred (fun (x : Entry) => x.category = e.category ∧
      x.ttlEntry = e.ttlEntry ∧ x.ttlMeta = e.ttlMeta ∧ x.message = e.message ∧
      x.tags = e.tags ∧ x.metaKeys = e.metaKeys ∧ x.metaValues = e.metaValues ∧
      x.metricKeys = e.metricKeys ∧ x.metricValues = e.metricValues)
      _ ?_ fs _ ⟨rfl, rfl, rfl, rfl, rfl, rfl, rfl, rfl, rfl⟩
    intro b fr hb
    obtain ⟨file, line⟩ := fr
    cases file with
    | none => exact hb
    | some f =>
      dsimp only []
      split
      · exact hb
      · exact hb

/-- A single string argument sets the (truncated) message and nothing
else; the ambient trace of an empty parse leaves the trace unset. -/
theorem sendEntry_single_str (L : Limits) (sev b te tm : Int) (s : List Char) :
    sendEntry L sev b te tm [.str s] []
      = { severity := sev, bucketId := b, message := truncate s L.maxMessageSize
          ttlEntry := te, ttlMeta := tm, tags := [], metaKeys := []
          metaValues := [] } := rfl

/-- A nonzero category marker applies the clamped category. -/
theorem sendEntry_category_marker (L : Limits) (sev b te tm c : Int)
    (amb : List Frame) (hc : c ≠ 0) :
    (sendEntry L sev b te tm [category c] amb).category
      = some (minMax c 0 (L.maxCategorySize : Int)) := by
  have hb : (c != 0) = true := by simpa using hc
  have hb' : jsTruthy (getField [("_category".toList, JSValue.num c)]
      "_category".toList) = true := hb
  unfold sendEntry
  dsimp only []
  rw [List.foldl_cons, List.foldl_nil]
  dsimp only [category, maybeStringify, processArg]
  rw [if_pos hb']
  split
  · rw [(setStackTrace_preserves L _ amb).1]
    rfl
  · rename_i hne
    exact absurd rfl hne

/-- A nonzero entry-TTL marker applies the clamped entry TTL. -/
theorem sendEntry_entryTTL_marker (L : Limits) (sev b te tm t : Int)
    (amb : List Frame) (ht : t ≠ 0) :
    (sendEntry L sev b te tm [TTL t] amb).ttlEntry
      = minMax t 0 (L.maxTTL : Int) := by
  have hb : (t != 0) = true := by simpa using ht
  have hb' : jsTruthy (getField [("_entryTTL".toList, JSValue.num t)]
      "_entryTTL".toList) = true := hb
  unfold sendEntry
  dsimp only []
  rw [List.foldl_cons, List.foldl_nil]
  dsimp only [TTL, maybeStringify, processArg]
  have hno1 : jsTruthy (getField [("_entryTTL".toList, JSValue.num t)]
      "_category".toList) = false := rfl
  simp only [hno1, hb', Bool.false_eq_true, if_false, if_true]
  rw [(setStackTrace_preserves L _ amb).2.1]
  rfl

/-- A nonzero meta-TTL marker applies the clamped meta TTL. -/
theorem sendEntry_metaTTL_marker (L : Limits) (sev b te tm u : Int)
    (amb : List Frame) (hu : u ≠ 0) :
    (sendEntry L sev b te tm [metaTTL u] amb).ttlMeta
      = minMax u 0 (L.maxTTL : Int) := by
  have hb : (u != 0) = true := by simpa using hu
  have hb' : jsTruthy (getField [("_metaTTL".toList, JSValue.num u)]
      "_metaTTL".toList) = true := hb
  unfold sendEntry
  dsimp only []
  rw [List.foldl_cons, List.foldl_nil]
  dsimp only [metaTTL, maybeStringify, processArg]
  have hno1 : jsTruthy (getField [("_metaTTL".toList, JSValue.num u)]
      "_category".toList) = false := rfl
  have hno2 : jsTruthy (getField [("_metaTTL".toList, JSValue.num u)]
      "_entryTTL".toList) = false := rfl
  simp only [hno1, hno2, hb', Bool.false_eq_true, if_false, if_true]
  rw [(setStackTrace_preserves L _ amb).2.2.1]
  rfl

/-- C6 (amended): for every marker object with a NONZERO integer payload,
building the entry applies the corresponding field clamped into its valid
range (below 0 clamps to 0, above the maximum clamps to the maximum); in
particular category payload -5 yields category 0 and payload
`maxCategorySize + 100` yields `maxCategorySize`.  A payload of exactly 0
is not applied: the falsy marker check routes the object into the
metadata branch instead (see the counterexample). -/
theorem c6_marker_clamping (L : Limits) (sev b te tm c t u : Int)
    (amb : List Frame) (hc : c ≠ 0) (ht : t ≠ 0) (hu : u ≠ 0) :
    (sendEntry L sev b te tm [category c] amb).category
      = some (minMax c 0 (L.maxCategorySize : Int)) ∧
    (sendEntry L sev b te tm [TTL t] amb).ttlEntry
      = minMax t 0 (L.maxTTL : Int) ∧
    (sendEntry L sev b te tm [metaTTL u] amb).ttlMeta
      = minMax u 0 (L.maxTTL : Int) ∧
    (sendEntry L sev b te tm [category (-5)] amb).category = some 0 ∧
    (sendEntry L sev b te tm [category ((L.maxCategorySize : Int) + 100)] amb).category
      = some (L.maxCategorySize : Int) := by
  refine ⟨sendEntry_category_marker L sev b te tm c amb hc,
    sendEntry_entryTTL_marker L sev b te tm t amb ht,
    sendEntry_metaTTL_marker L sev b te tm u amb hu, ?_, ?_⟩
  · rw [sendEntry_category_marker L sev b te tm (-5) amb (by norm_num)]
    unfold minMax
    rw [if_pos (by norm_num)]
  · rw [sendEntry_category_marker L sev b te tm ((L.maxCategorySize : Int) + 100)
      amb (by omega)]
    unfold minMax
    rw [if_neg (by omega), if_pos (by omega)]

/-- C6 counterexample: a category marker with payload exactly 0 does not
set the category at all — the object is classified as metadata, appending
the pair `("_category", "0")`. -/
theorem c6_zero_payload_not_applied :
    (sendEntry exampleLimits 6 0 0 0 [category 0] []).category = none ∧
    (sendEntry exampleLimits 6 0 0 0 [category 0] []).metaKeys
      = ["_category".toList] ∧
    (sendEntry exampleLimits 6 0 0 0 [category 0] []).metaValues
      = ["0".toList] :=
  ⟨rfl, rfl, rfl⟩

/-- C6 witness: concrete nonzero payloads, clamped at both bounds. -/
theorem c6_marker_clamping_witness :
    (sendEntry exampleLimits 6 0 0 0 [category 3] []).category
      = some (minMax 3 0 ((exampleLimits.maxCategorySize : Int))) ∧
    (sendEntry exampleLimits 6 0 0 0 [TTL 4] []).ttlEntry
      = minMax 4 0 ((exampleLimits.maxTTL : Int)) ∧
    (sendEntry exampleLimits 6 0 0 0 [metaTTL 5] []).ttlMeta
      = minMax 5 0 ((exampleLimits.maxTTL : Int)) ∧
    (sendEntry exampleLimits 6 0 0 0 [category (-5)] []).category = some 0 ∧
    (sendEntry exampleLimits 6 0 0 0
        [category ((exampleLimits.maxCategorySize : Int) + 100)] []).category
      = some ((exampleLimits.maxCategorySize : Int)) :=
  c6_marker_clamping exampleLimits 6 0 0 0 3 4 5 [] (by norm_num) (by norm_num)
    (by norm_num)

/-- The meta loop appends keys and values in lockstep and touches no
metric or trace field. -/
theorem addMeta_inv (L : Limits) :
    ∀ (fields : List (List Char × JSValue)) (e : Entry),
      e.metaKeys.length = e.metaValues.length →
      (addMeta L e fields).metaKeys.length
        = (addMeta L e fields).metaValues.length ∧
      (addMeta L e fields).metricKeys = e.metricKeys ∧
      (addMeta L e fields).metricValues = e.metricValues ∧
      (addMeta L e fields).tracePaths = e.tracePaths ∧
      (addMeta L e fields).traceLines = e.traceLines
  | [], e, h => ⟨h, rfl, rfl, rfl, rfl⟩
  | (k, v) :: rest, e, h => by
    unfold addMeta
    split
    · exact ⟨h, rfl, rfl, rfl, rfl⟩
    · exact addMeta_inv L rest _ (by simp [h])

/-- The builder's structural invariant: parallel sequences stay equal in
length, and the metric fields stay unset. -/
theorem processArg_inv (L : Limits) (e : Entry) (a : JSValue)
    (hq : e.metaKeys.length = e.metaValues.length ∧ e.metricKeys = none ∧
      e.metricValues = none ∧
      (e.tracePaths.getD []).length = (e.traceLines.getD []).length) :
    (processArg L e a).metaKeys.length = (processArg L e a).metaValues.length ∧
    (processArg L e a).metricKeys = none ∧ (processArg L e a).metricValues = none ∧
    ((processArg L e a).tracePaths.getD []).length
      = ((processArg L e a).traceLines.getD []).length := by
  cases a with
  | obj fields =>
    dsimp only [processArg]
    split
    · exact hq
    · split
      · exact hq
      · split
        · exact hq
        · obtain ⟨h1, h2, h3, h4, h5⟩ := addMeta_inv L fields e hq.1
          exact ⟨h1, h2.trans hq.2.1, h3.trans hq.2.2.1, by rw [h4, h5]; exact hq.2.2.2⟩
  | arr xs =>
    dsimp only [processArg]
    exact foldl_pred (fun (x : Entry) =>
      x.metaKeys.length = x.metaValues.length ∧ x.metricKeys = none ∧
        x.metricValues = none ∧
        (x.tracePaths.getD []).length = (x.traceLines.getD []).length)
      (fun e tag =>
        { e with tags := (append e.tags (truncate (stringify tag) L.maxTagSize)
            L.maxTagsCount) })
      (fun b a hb => hb) xs e hq
  | str s =>
    dsimp only [processArg]
    split
    · exact hq
    · exact hq
  | null => dsimp only [processArg]; split <;> exact hq
  | bool v => dsimp only [processArg]; split <;> exact hq
  | num n => dsimp only [processArg]; split <;> exact hq
  | err m fs => dsimp only [processArg]; split <;> exact hq

theorem setStackTrace_inv (L : Limits) (e : Entry) (fs : List Frame)
    (hq : e.metaKeys.length = e.metaValues.length ∧ e.metricKeys = none ∧
      e.metricValues = none ∧
      (e.tracePaths.getD []).length = (e.traceLines.getD []).length) :
    (setStackTrace L e fs).metaKeys.length
      = (setStackTrace L e fs).metaValues.length ∧
    (setStackTrace L e fs).metricKeys = none ∧
    (setStackTrace L e fs).metricValues = none ∧
    ((setStackTrace L e fs).tracePaths.getD []).length
      = ((setStackTrace L e fs).traceLines.getD []).length := by
  unfold setStackTrace
  split
  · exact hq
  · refine foldl_pred (fun (x : Entry) =>
      x.metaKeys.length = x.metaValues.length ∧ x.metricKeys = none ∧
        x.metricValues = none ∧
        (x.tracePaths.getD []).length = (x.traceLines.getD []).length)
      _ ?_ fs _ ⟨hq.1, hq.2.1, hq.2.2.1, rfl⟩
    intro b fr hb
    obtain ⟨file, line⟩ := fr
    cases file with
    | none => exact hb
    | some f =>
      dsimp only []
      split
      · exact hb
      · refine ⟨hb.1, hb.2.1, hb.2.2.1, ?_⟩
        have htr := hb.2.2.2
        dsimp only [append, Option.getD_some]
        by_cases hlt : (b.tracePaths.getD []).length < L.maxStackTraceCount
        · rw [if_pos hlt, if_pos (by omega)]
          simp [htr]
        · rw [if_neg hlt, if_neg (by omega)]
          exact htr

/-- C7: after building any entry from any argument sequence, the parallel
sequences have equal lengths: `metaKeys`/`metaValues`,
`metricKeys`/`metricValues`, and `tracePaths`/`traceLines`. -/
theorem c7_parallel_sequences (L : Limits) (sev bId te tm : Int)
    (args : List JSValue) (amb : List Frame) :
    (sendEntry L sev bId te tm args amb).metaKeys.length
      = (sendEntry L sev bId te tm args amb).metaValues.length ∧
    ((sendEntry L sev bId te tm args amb).metricKeys.getD []).length
      = ((sendEntry L sev bId te tm args amb).metricValues.getD []).length ∧
    ((sendEntry L sev bId te tm args amb).tracePaths.getD []).length
      = ((sendEntry L sev bId te tm args amb).traceLines.getD []).length := by
  have key : (sendEntry L sev bId te tm args amb).metaKeys.length
      = (sendEntry L sev bId te tm args amb).metaValues.length ∧
      (sendEntry L sev bId te tm args amb).metricKeys = none ∧
      (sendEntry L sev bId te tm args amb).metricValues = none ∧
      ((sendEntry L sev bId te tm args amb).tracePaths.getD []).length
        = ((sendEntry L sev bId te tm args amb).traceLines.getD []).length := by
    unfold sendEntry
    dsimp only []
    have hfold := foldl_pred (fun (x : Entry) =>
      x.metaKeys.length = x.metaValues.length ∧ x.metricKeys = none ∧
        x.metricValues = none ∧
        (x.tracePaths.getD []).length = (x.traceLines.getD []).length)
      (fun e arg => match arg with
        | .err m fs => processArg L (setStackTrace L e fs) (.str m)
        | _ => processArg L e (maybeStringify arg))
      (fun b a hb => by
        cases a with
        | err m fs => exact processArg_inv L _ _ (setStackTrace_inv L b fs hb)
        | null => exact processArg_inv L _ _ hb
        | bool v => exact processArg_inv L _ _ hb
        | num n => exact processArg_inv L _ _ hb
        | str s => exact processArg_inv L _ _ hb
        | arr xs => exact processArg_inv L _ _ hb
        | obj fields => exact processArg_inv L _ _ hb)
      args ({ severity := sev, bucketId := bId, message := [], ttlEntry := te
              ttlMeta := tm, tags := [], metaKeys := [], metaValues := [] } : Entry)
      ⟨rfl, rfl, rfl, rfl⟩
    split
    · exact setStackTrace_inv L _ amb hfold
    · exact hfold
  refine ⟨key.1, ?_, key.2.2.2⟩
  rw [key.2.1, key.2.2.1]
  rfl

/-! ### ASCII / UTF-8 lemmas for the message-truncation claim -/

theorem utf8Char_ascii {c : Char} (h : c.toNat < 128) : utf8Char c = [c.toNat] := by
  unfold utf8Char
  dsimp only []
  rw [if_pos (by omega)]

theorem flatMap_utf8_ascii (s : List Char) (h : ∀ c ∈ s, c.toNat < 128) :
    s.flatMap utf8Char = s.map (·.toNat) := by
  induction s with
  | nil => rfl
  | cons c cs ih =>
    rw [List.flatMap_cons, List.map_cons, utf8Char_ascii (h c (List.mem_cons_self ..)),
      ih (fun x hx => h x (List.mem_cons_of_mem _ hx))]
    rfl

theorem bytesJS_ascii (s : List Char) (h : ∀ c ∈ s, c.toNat < 128) :
    bytesJS s = s.length := by
  unfold bytesJS
  rw [flatMap_utf8_ascii s h, List.length_map]

theorem utf8Fit_complete :
    ∀ (s : List Char) (rem : Nat), (s.flatMap utf8Char).length ≤ rem →
      utf8Fit s rem = s.flatMap utf8Char
  | [], _, _ => rfl
  | c :: cs, rem, h => by
    unfold utf8Fit
    dsimp only []
    rw [List.flatMap_cons, List.length_append] at h
    rw [if_pos (by omega), utf8Fit_complete cs _ (by omega), List.flatMap_cons]

/-- C5 (amended): a first scalar/string argument of `maxMessageSize + k`
characters (k > 0) is truncated to `maxMessageSize` CHARACTERS
(`substring` counts code units, not bytes); when the text is single-byte
(ASCII) this is also `maxMessageSize` UTF-8 bytes, and the encoded wire
message then carries exactly `maxMessageSize` bytes of message payload
after the 1-byte length prefix at offset 19.  (For multi-byte text the
byte count can exceed `maxMessageSize`; see the counterexample.) -/
theorem c5_message_truncation {L : Limits} {bufInit : Nat → Nat}
    {mid pid seq now : Nat} {sev bId te tm : Int} {s : List Char} {k : Nat}
    {r : WriteResult}
    (hasc : ∀ c ∈ s, c.toNat < 128)
    (hlen : s.length = L.maxMessageSize + k) (hk : 0 < k)
    (hcap : 20 + L.maxMessageSize ≤ L.maxEntrySize)
    (h : clientWrite L.maxEntrySize bufInit mid pid seq now
      (sendEntry L sev bId te tm [.str s] []) = .ok r) :
    (sendEntry L sev bId te tm [.str s] []).message = s.take L.maxMessageSize ∧
    (sendEntry L sev bId te tm [.str s] []).message.length = L.maxMessageSize ∧
    bytesJS (sendEntry L sev bId te tm [.str s] []).message = L.maxMessageSize ∧
    r.buf 19 = L.maxMessageSize ∧
    20 + L.maxMessageSize ≤ r.size ∧
    (r.bytes.drop 20).take L.maxMessageSize
      = (s.take L.maxMessageSize).map (·.toNat) := by
  have hmem : ∀ c ∈ s.take L.maxMessageSize, c.toNat < 128 :=
    fun c hc => hasc c (List.take_subset _ _ hc)
  have htl : (s.take L.maxMessageSize).length = L.maxMessageSize := by
    rw [List.length_take]
    omega
  have hbj : bytesJS (s.take L.maxMessageSize) = L.maxMessageSize := by
    rw [bytesJS_ascii _ hmem, htl]
  have hmsg_eq : (sendEntry L sev bId te tm [.str s] []).message
      = s.take L.maxMessageSize := by
    rw [sendEntry_single_str]
    rfl
  obtain ⟨_, hbytes, _, _, _, _, _, _, _, hpre, hpay, hsz⟩ := clientWrite_facts h
  rw [hmsg_eq] at hpre hpay hsz
  have hfitlen : ((s.take L.maxMessageSize).flatMap utf8Char).length
      ≤ L.maxEntrySize - 20 := by
    rw [flatMap_utf8_ascii _ hmem, List.length_map, htl]
    omega
  have hfit : utf8Fit (s.take L.maxMessageSize) (L.maxEntrySize - 20)
      = (s.take L.maxMessageSize).map (·.toNat) := by
    rw [utf8Fit_complete _ _ hfitlen, flatMap_utf8_ascii _ hmem]
  rw [hfit] at hpay hsz
  rw [List.length_map, htl] at hpay hsz
  refine ⟨hmsg_eq, by rw [hmsg_eq, htl], by rw [hmsg_eq, hbj],
    by rw [hpre, hbj], by omega, ?_⟩
  rw [hbytes, slice_map_range r.buf (by omega)]
  apply List.ext_getElem
  · simp only [List.length_map, List.length_range, htl]
  · intro i h1 h2
    rw [List.length_map, List.length_range] at h1
    simp only [List.getElem_map, List.getElem_range]
    rw [hpay i h1, List.getD_eq_getElem?_getD,
      List.getElem?_eq_getElem (by simp [htl]; omega), Option.getD_some]
    simp [List.getElem_map]

/-- C5 counterexample (the claim as stated): with multi-byte characters
the message does NOT hold at most `maxMessageSize` bytes.  With
`maxMessageSize = 4`, five copies of `'あ'` (3 UTF-8 bytes each) truncate
to four characters holding 12 bytes, and the wire message carries 12
payload bytes after its length prefix. -/
theorem c5_multibyte_exceeds_bytes :
    (List.replicate 5 'あ').length = smallLimits.maxMessageSize + 1 ∧
    bytesJS ((sendEntry smallLimits 6 0 0 0
      [.str (List.replicate 5 'あ')] []).message) = 12 ∧
    ¬ bytesJS ((sendEntry smallLimits 6 0 0 0
      [.str (List.replicate 5 'あ')] []).message) ≤ smallLimits.maxMessageSize ∧
    (clientWrite smallLimits.maxEntrySize (fun _ => 0) 0 0 0 0
        (sendEntry smallLimits 6 0 0 0 [.str (List.replicate 5 'あ')] [])).map
      (fun r => r.buf 19) = .ok 12 := by
  refine ⟨rfl, rfl, by decide, rfl⟩

/-- C5 witness: an ASCII oversize message truncates to exactly
`maxMessageSize` payload bytes. -/
theorem c5_message_truncation_witness :
    ∃ r, clientWrite smallLimits.maxEntrySize (fun _ => 0) 0 0 0 0
        (sendEntry smallLimits 6 0 0 0 [.str "hello".toList] []) = .ok r ∧
      r.buf 19 = smallLimits.maxMessageSize ∧
      (r.bytes.drop 20).take smallLimits.maxMessageSize
        = ("hello".toList.take smallLimits.maxMessageSize).map (·.toNat) := by
  obtain ⟨r, hr⟩ := okBool_exists
    (x := clientWrite smallLimits.maxEntrySize (fun _ => 0) 0 0 0 0
      (sendEntry smallLimits 6 0 0 0 [.str "hello".toList] [])) rfl
  have hc := c5_message_truncation (k := 1) (by decide) (by decide) (by decide)
    (by decide) hr
  exact ⟨r, hr, hc.2.2.2.1, hc.2.2.2.2.2⟩

end LogCenter
